import Mathlib

/-!
Verification of the EDK2 variable-store codec of `go-redfish-uefi`.

The definitions below are a shallow embedding of the Go sources:
`internal/firmware/varstore/edk2.go` (variable record codec, firmware
volume locator, variable store serialization), `internal/firmware/efi`
(GUID codec, device paths, boot entries).  Byte buffers are `List Nat`
with every element below 256, machine integers are `Nat` with explicit
`% 2 ^ w` where the code truncates, and Go slice reads are embedded with
`List.getD`/`List.take`/`List.drop` (the Go code only reads in bounds at
the places embedded here, thanks to the guards that are part of the
embedded control flow).
-/

/-- `data[i]` for a Go byte slice (reads in the embedded code are guarded
to be in bounds; out of bounds yields the default 0). -/
def byteAt (l : List Nat) (i : Nat) : Nat := l.getD i 0

/-- `binary.LittleEndian.Uint16(data[i:])`. -/
def readU16 (l : List Nat) (i : Nat) : Nat := byteAt l i + 256 * byteAt l (i + 1)

/-- `binary.LittleEndian.Uint32(data[i:])`. -/
def readU32 (l : List Nat) (i : Nat) : Nat :=
  byteAt l i + 256 * byteAt l (i + 1) + 65536 * byteAt l (i + 2) + 16777216 * byteAt l (i + 3)

/-- `binary.LittleEndian.Uint64(data[i:])`. -/
def readU64 (l : List Nat) (i : Nat) : Nat :=
  readU32 l i + 4294967296 * readU32 l (i + 4)

/-- Little-endian bytes of a `uint16` value. -/
def le16 (n : Nat) : List Nat := [n % 256, n / 256 % 256]

/-- Little-endian bytes of a `uint32` value. -/
def le32 (n : Nat) : List Nat :=
  [n % 256, n / 256 % 256, n / 65536 % 256, n / 16777216 % 256]

/-- Little-endian bytes of a `uint64` value. -/
def le64 (n : Nat) : List Nat :=
  le32 (n % 4294967296) ++ le32 (n / 4294967296 % 4294967296)

/-- `(pos + 3) & ^3` from `GetVarList`: round up to the next multiple of 4
(the Go expression on a non-negative `int`). -/
def align4 (n : Nat) : Nat := (n + 3) / 4 * 4

/-- `efi.GUID`: `Data1 uint32`, `Data2, Data3 uint16`, `Data4 [8]byte`
(`internal/firmware/efi/variables.go`). -/
structure GUID where
  data1 : Nat
  data2 : Nat
  data3 : Nat
  data4 : List Nat
  deriving DecidableEq, Repr

/-- `GUID.BytesLE` / `GUID.Bytes`: little-endian first three fields, then
the eight `Data4` bytes. -/
def GUID.bytesLE (g : GUID) : List Nat :=
  le32 g.data1 ++ le16 g.data2 ++ le16 g.data3 ++ g.data4

/-- `efi.ParseBinGUID(data, offset)`: read a binary GUID at `offset`. -/
def parseBinGUID (l : List Nat) (off : Nat) : GUID :=
  { data1 := readU32 l off
    data2 := readU16 l (off + 4)
    data3 := readU16 l (off + 6)
    data4 := (List.range 8).map (fun i => byteAt l (off + 8 + i)) }

/-- `efi.NvDataGUID` (`8d1b55ed-bebf-40b7-8246-d8bd7d64edbe`). -/
def NvDataGUID : GUID :=
  ⟨0x8d1b55ed, 0xbebf, 0x40b7, [0x82, 0x46, 0xd8, 0xbd, 0x7d, 0x64, 0xed, 0xbe]⟩

/-- `efi.FfsGUID` (`8c8ce578-8a3d-4f1c-9935-896185c32dd3`). -/
def FfsGUID : GUID :=
  ⟨0x8c8ce578, 0x8a3d, 0x4f1c, [0x99, 0x35, 0x89, 0x61, 0x85, 0xc3, 0x2d, 0xd3]⟩

/-- Modelled from the spec: the UCS-2 string codec `efi.NewUCS16String`
is not under `src/` (only callers are).  Per the spec, a name is stored
as UCS-2 code units, little-endian, "including any terminator": each
character becomes one 16-bit unit and a 16-bit null terminator is
appended. -/
def ucs16Bytes (s : String) : List Nat :=
  (s.data.map Char.toNat ++ [0]).flatMap le16

/-- Modelled from the spec: `efi.FromUCS16(data, offset)` is not under
`src/`.  Per the spec the name bytes are "UCS-2 decoded to text": read
16-bit little-endian units starting at `offset` until a null unit or the
end of the buffer.  Structural fuel recursion; `fromUCS16` supplies fuel
covering the whole buffer. -/
def fromUCS16Units (l : List Nat) : Nat → Nat → List Char
  | 0, _ => []
  | fuel + 1, off =>
    if off + 2 ≤ l.length then
      let u := readU16 l off
      if u = 0 then [] else Char.ofNat u :: fromUCS16Units l fuel (off + 2)
    else []

/-- UCS-2 decode starting at `off` (see `fromUCS16Units`). -/
def fromUCS16 (l : List Nat) (off : Nat) : String :=
  String.mk (fromUCS16Units l l.length off)

/-- `varstore.EfiVar`: name, GUID, attributes, payload, monotonic count,
public-key index and the simplified 8-byte time
(`internal/firmware/varstore/edk2.go`). -/
structure EfiVar where
  name : String
  guid : GUID
  attr : Nat
  data : List Nat
  count : Nat
  pkIdx : Nat
  time : List Nat
  deriving DecidableEq, Repr

/-- `varstore.BytesVar`: encode one variable record — magic `0x55AA`,
state `0x3F`, one pad byte, `attr`, `count`, the 8 time bytes, `pkIdx`,
`nameSize`, `dataSize`, the GUID, the UCS-2 name, the payload, then
`0xFF` padding up to a 4-byte boundary. -/
def BytesVar (v : EfiVar) : List Nat :=
  let body :=
    le16 0x55aa ++ [0x3f] ++ [0x00] ++ le32 v.attr ++ le64 v.count ++ v.time ++
      le32 v.pkIdx ++ le32 (ucs16Bytes v.name).length ++ le32 v.data.length ++
      v.guid.bytesLE ++ ucs16Bytes v.name ++ v.data
  body ++ List.replicate ((4 - body.length % 4) % 4) 0xff

/-- The variable materialized by `GetVarList` for a valid (state `0x3F`)
record starting at `pos`: header fields at their fixed offsets, GUID at
`pos+44`, UCS-2 name at `pos+60`, payload of `dataSize` bytes after the
name. -/
def decodeVarAt (fd : List Nat) (pos : Nat) : EfiVar :=
  { name := fromUCS16 fd (pos + 44 + 16)
    guid := parseBinGUID fd (pos + 44)
    attr := readU32 fd (pos + 4)
    data := (fd.drop (pos + 44 + 16 + readU32 fd (pos + 36))).take (readU32 fd (pos + 40))
    count := readU64 fd (pos + 8)
    pkIdx := readU32 fd (pos + 32)
    time := (fd.drop (pos + 16)).take 8 }

/-- The record decode loop of `varstore.Edk2VarStore.GetVarList`, with
structural fuel (each iteration advances `pos` by at least 60, so
`getVarList` passes sufficient fuel; `getVarLoop_fuel_irrel` shows the
fuel does not matter once it covers `endPos - pos`).  Decoded variables
are returned in scan order. -/
def getVarLoop (fd : List Nat) (endPos : Nat) : Nat → Nat → List EfiVar
  | 0, _ => []
  | fuel + 1, pos =>
    if pos < endPos then
      if pos + 44 > fd.length then []
      else if readU16 fd pos ≠ 0x55aa then []
      else
        let nsize := readU32 fd (pos + 36)
        let dsize := readU32 fd (pos + 40)
        let newpos := align4 (pos + 44 + 16 + nsize + dsize)
        if byteAt fd (pos + 2) = 0x3f then
          if pos + 44 + 16 + nsize + dsize > fd.length then []
          else decodeVarAt fd pos :: getVarLoop fd endPos fuel newpos
        else getVarLoop fd endPos fuel newpos
    else []

/-- `varstore.Edk2VarStore.GetVarList` over the region `[startPos, endPos)`
of `fd`. -/
def getVarList (fd : List Nat) (startPos endPos : Nat) : List EfiVar :=
  getVarLoop fd endPos (endPos + 1 - startPos) startPos

/-- The scan loop of `varstore.FindNvData`, with structural fuel: check the
GUID at `offset+16`; a firmware-file-system match skips by the 64-bit
length at `offset+32`, anything else advances by the fixed 1024-byte
stride; the scan ends with `-1` once fewer than 64 bytes remain past
`offset`.  (The source loop can fail to advance on a zero-length
file-system section; the fuel only bounds that artifact and is plentiful
for every run that advances.) -/
def findNvLoop (data : List Nat) : Nat → Nat → Int
  | 0, _ => -1
  | fuel + 1, offset =>
    if offset + 64 < data.length then
      if parseBinGUID data (offset + 16) = FfsGUID then
        findNvLoop data fuel (offset + readU64 data (offset + 32))
      else
        findNvLoop data fuel (offset + 1024)
    else -1

/-- `varstore.FindNvData`. -/
def findNvData (data : List Nat) : Int := findNvLoop data (data.length + 1) 0

/-- Byte-wise (code point) lexicographic comparison of two names: the
order `sort.Strings` uses in `BytesVarList` (Go compares UTF-8 bytes,
which coincides with code-point order). -/
def strLeB : List Char → List Char → Bool
  | [], _ => true
  | _ :: _, [] => false
  | a :: as, b :: bs =>
    if a.toNat < b.toNat then true
    else if b.toNat < a.toNat then false
    else strLeB as bs

/-- `sort.Strings` order on variable names. -/
def nameLe (a b : String) : Bool := strLeB a.data b.data

/-- The sorted-key traversal of `varstore.Edk2VarStore.BytesVarList`:
the map's entries ordered by name. -/
def sortVars (l : List (String × EfiVar)) : List (String × EfiVar) :=
  List.insertionSort (fun a b => nameLe a.1 b.1 = true) l

/-- `varstore.Edk2VarStore.BytesVarList`: concatenate the encoded
variables in sorted-name order; `none` (the `Capacity` error
"varstore is too small") when the result exceeds `end - start`. -/
def BytesVarList (startPos endPos : Nat) (varlist : List (String × EfiVar)) :
    Option (List Nat) :=
  let buf := (sortVars varlist).flatMap (fun kv => BytesVar kv.2)
  if (buf.length : Int) > (endPos : Int) - (startPos : Int) then none else some buf

/-- `varstore.Edk2VarStore.BytesVarStore`: head of the image, encoded
variables, `0xFF` padding up to `endPos`, tail of the image. -/
def BytesVarStore (fd : List Nat) (startPos endPos : Nat)
    (varlist : List (String × EfiVar)) : Option (List Nat) :=
  match BytesVarList startPos endPos varlist with
  | none => none
  | some varBytes =>
      some (fd.take startPos ++ varBytes ++
        List.replicate (endPos - startPos - varBytes.length) 0xff ++ fd.drop endPos)

/-- `efi.DevicePathElem`: type byte, subtype byte, payload
(`src/unnamed/part_002`). -/
structure DevicePathElem where
  devType : Nat
  subType : Nat
  data : List Nat
  deriving DecidableEq, Repr

/-- `DevicePathElem.Size`: serialized size, `len(data) + 4`. -/
def DevicePathElem.size (e : DevicePathElem) : Nat := e.data.length + 4

/-- `DevicePathElem.Bytes`: type, subtype, 16-bit little-endian size
(the `uint16` cast truncates mod `2 ^ 16`), then the payload. -/
def DevicePathElem.bytes (e : DevicePathElem) : List Nat :=
  [e.devType, e.subType] ++ le16 ((e.data.length + 4) % 65536) ++ e.data

/-- `efi.NewDevicePathElem`: fewer than 4 bytes yields the terminal
sentinel; otherwise read type, subtype and the declared 16-bit size, and
take `data[4:size]` when the size is at least 4 and within the buffer,
empty data otherwise. -/
def NewDevicePathElem (data : List Nat) : DevicePathElem :=
  if 4 ≤ data.length then
    { devType := byteAt data 0
      subType := byteAt data 1
      data :=
        if readU16 data 2 ≤ data.length ∧ 4 ≤ readU16 data 2 then
          (data.take (readU16 data 2)).drop 4
        else [] }
  else { devType := 0x7f, subType := 0xff, data := [] }

/-- The decode loop of `efi.NewDevicePath`, with structural fuel: decode
an element at `pos`, stop on the terminal type `0x7F`, otherwise append
it and advance by its size.  Every element has size at least 4, so
`NewDevicePath` passes sufficient fuel and `dpLoop_fuel_irrel` shows any
fuel beyond `data.length - pos` gives the same result. -/
def dpLoop (data : List Nat) : Nat → Nat → List DevicePathElem
  | 0, _ => []
  | fuel + 1, pos =>
    if pos < data.length then
      let e := NewDevicePathElem (data.drop pos)
      if e.devType = 0x7f then [] else e :: dpLoop data fuel (pos + e.size)
    else []

/-- `efi.NewDevicePath`: empty input yields the empty path, otherwise run
the decode loop from position 0. -/
def NewDevicePath (data : List Nat) : List DevicePathElem :=
  if data.length = 0 then [] else dpLoop data (data.length + 1) 0

/-- `DevicePath.Bytes`: concatenate the element encodings and append one
terminal element (`0x7F/0xFF`, empty data). -/
def pathBytes (p : List DevicePathElem) : List Nat :=
  p.flatMap DevicePathElem.bytes ++ DevicePathElem.bytes ⟨0x7f, 0xff, []⟩

/-- Modelled from the spec: `strings.ToLower` on the decoded UCS-2 text
(`DevicePathElem.Equals` compares file paths case-insensitively); mapped
per character. -/
def lowerStr (s : String) : String := String.mk (s.data.map Char.toLower)

/-- `DevicePathElem.Equals`: same type and subtype; media/file-path
elements (`0x04`/`0x04`) compare the decoded text case-insensitively,
all other elements compare data bytes exactly. -/
def DevicePathElem.equalsB (e o : DevicePathElem) : Bool :=
  if e.devType ≠ o.devType then false
  else if e.subType ≠ o.subType then false
  else if e.devType = 0x04 ∧ e.subType = 0x04 then
    lowerStr (fromUCS16 e.data 0) == lowerStr (fromUCS16 o.data 0)
  else e.data == o.data

/-- `DevicePath.Equals`: equal length and element-wise `Equals`. -/
def pathEquals : List DevicePathElem → List DevicePathElem → Bool
  | [], [] => true
  | a :: as, b :: bs => DevicePathElem.equalsB a b && pathEquals as bs
  | _, _ => false

/-- One lowercase hex digit, as `fmt` prints with the `x` verb. -/
def hexDigitChar (n : Nat) : Char := Char.ofNat (if n < 10 then 48 + n else 87 + n)

/-- Hex digits of `n`, least significant first, exactly `w` digits. -/
def fmtHexLE : Nat → Nat → List Char
  | 0, _ => []
  | w + 1, n => hexDigitChar (n % 16) :: fmtHexLE w (n / 16)

/-- `fmt.Sprintf` `%0wx` for a value of a `w`-nibble unsigned type:
`w` zero-padded lowercase hex digits, most significant first. -/
def fmtHex (w n : Nat) : List Char := (fmtHexLE w n).reverse

/-- `GUID.String` (`internal/firmware/efi/variables.go`): lowercase hex
grouped 8-4-4-4-12. -/
def GUID.toStr (g : GUID) : List Char :=
  fmtHex 8 g.data1 ++ ['-'] ++ fmtHex 4 g.data2 ++ ['-'] ++ fmtHex 4 g.data3 ++ ['-'] ++
    fmtHex 2 (byteAt g.data4 0) ++ fmtHex 2 (byteAt g.data4 1) ++ ['-'] ++
    fmtHex 2 (byteAt g.data4 2) ++ fmtHex 2 (byteAt g.data4 3) ++
    fmtHex 2 (byteAt g.data4 4) ++ fmtHex 2 (byteAt g.data4 5) ++
    fmtHex 2 (byteAt g.data4 6) ++ fmtHex 2 (byteAt g.data4 7)

/-- Value of one hex character, as `strconv.ParseUint` base 16 accepts
digits and both letter cases. -/
def hexCharVal (c : Char) : Option Nat :=
  if 48 ≤ c.toNat ∧ c.toNat ≤ 57 then some (c.toNat - 48)
  else if 97 ≤ c.toNat ∧ c.toNat ≤ 102 then some (c.toNat - 87)
  else if 65 ≤ c.toNat ∧ c.toNat ≤ 70 then some (c.toNat - 55)
  else none

/-- Accumulator pass of `strconv.ParseUint(s, 16, bits)`. -/
def parseHexAcc : List Char → Nat → Option Nat
  | [], acc => some acc
  | c :: cs, acc =>
    match hexCharVal c with
    | none => none
    | some d => parseHexAcc cs (acc * 16 + d)

/-- `strconv.ParseUint(s, 16, bits)`: empty strings, non-hex characters
and values outside the `bits`-bit range are errors. -/
def parseUintHex (cs : List Char) (bits : Nat) : Option Nat :=
  if cs.isEmpty then none
  else
    match parseHexAcc cs 0 with
    | none => none
    | some v => if v < 2 ^ bits then some v else none

/-- The characters `ParseGUID` strips: both braces (code points 123 and
125), space (32) and the hyphen (45). -/
def keepGuidChar (c : Char) : Bool :=
  !(c.toNat = 123 || c.toNat = 125 || c.toNat = 32 || c.toNat = 45)

/-- The `strings.ReplaceAll` prelude of `efi.ParseGUID`. -/
def stripGuidChars (cs : List Char) : List Char := cs.filter keepGuidChar

/-- The `Data4` loop of `efi.ParseGUID`: parse consecutive 2-character
hex bytes. -/
def parseHexBytes : List Char → Option (List Nat)
  | [] => some []
  | [_] => none
  | c1 :: c2 :: rest =>
    match parseUintHex [c1, c2] 8, parseHexBytes rest with
    | some b, some bs => some (b :: bs)
    | _, _ => none

/-- `efi.ParseGUID`: strip braces, spaces and hyphens, require exactly 32
characters, then parse `Data1` from the first 8, `Data2` and `Data3`
from the next two groups of 4, and the 8 `Data4` bytes from the last 16. -/
def ParseGUID (cs : List Char) : Option GUID :=
  let s := stripGuidChars cs
  if s.length = 32 then
    match parseUintHex (s.take 8) 32, parseUintHex ((s.drop 8).take 4) 16,
        parseUintHex ((s.drop 12).take 4) 16, parseHexBytes (s.drop 16) with
    | some d1, some d2, some d3, some bs => some ⟨d1, d2, d3, bs⟩
    | _, _, _, _ => none
  else none

/-- `strings.HasPrefix` over the character lists of the two strings. -/
def startsWithB : List Char → List Char → Bool
  | _, [] => true
  | [], _ :: _ => false
  | c :: cs, p :: ps => c == p && startsWithB cs ps

/-- Modelled from the spec: `efi.BootEntry` itself is not under `src/`
(only callers); `ListBootEntries` populates only its `Attr` field, which
is all this development needs. -/
structure BootEntry where
  attr : Nat
  deriving DecidableEq, Repr

/-- The name of the boot-variable family, `varstore.BootPrefix`. -/
def bootPfxChars : List Char := "Boot".data

/-- `EfiVariableStore.ListBootEntries` (`src/unnamed/part_001`): walk the
variable map; names without the four-character boot marker are skipped;
for the rest, `strings.TrimPrefix` removes it and the remaining suffix is
parsed as 16-bit hex — a parse failure aborts the whole listing with an
error (`none`); otherwise an entry carrying the variable attributes is
added under the parsed id.  The map walk is embedded as a list walk;
an error result is order-independent. -/
def ListBootEntries : List (String × EfiVar) → Option (List (Nat × BootEntry))
  | [] => some []
  | (name, v) :: rest =>
    if startsWithB name.data bootPfxChars then
      match parseUintHex (name.data.drop 4) 16 with
      | none => none
      | some id => (ListBootEntries rest).map (fun es => (id, ⟨v.attr⟩) :: es)
    else ListBootEntries rest

/-- A concrete variable: three-character name, zero GUID, empty payload. -/
def exampleVar : EfiVar :=
  { name := "AAA", guid := ⟨0, 0, 0, List.replicate 8 0⟩, attr := 0, data := [],
    count := 0, pkIdx := 0, time := List.replicate 8 0 }

/-- A concrete 100-byte image whose bytes 16..32 hold the little-endian
NVRAM-data volume GUID, i.e. the scan candidate at offset 0 matches it. -/
def c3Image : List Nat :=
  List.replicate 16 0 ++ GUID.bytesLE NvDataGUID ++ List.replicate 68 0

/-- A well-formed numbered boot variable. -/
def bootVar : EfiVar :=
  ⟨"Boot0001", ⟨0, 0, 0, List.replicate 8 0⟩, 7, [], 0, 0, List.replicate 8 0⟩

/-- The boot-order variable; its name carries the boot marker but the
suffix is not hexadecimal. -/
def orderVar : EfiVar :=
  ⟨"BootOrder", ⟨0, 0, 0, List.replicate 8 0⟩, 7, [1, 0, 3, 0], 0, 0, List.replicate 8 0⟩

set_option maxRecDepth 8000

theorem align4_ge (n : Nat) : n ≤ align4 n := by
  unfold align4; omega

theorem getVarLoop_fuel_irrel (fd : List Nat) (endPos : Nat) :
    ∀ f1 f2 pos, endPos - pos < f1 → endPos - pos < f2 →
      getVarLoop fd endPos f1 pos = getVarLoop fd endPos f2 pos := by
  intro f1
  induction f1 with
  | zero => intro f2 pos h1 h2; omega
  | succ g ih =>
    intro f2 pos h1 h2
    obtain ⟨h, rfl⟩ : ∃ h, f2 = h + 1 := ⟨f2 - 1, by omega⟩
    simp only [getVarLoop]
    split_ifs with hp hb hm hs hd
    · rfl
    · rfl
    · rfl
    · have ha := align4_ge (pos + 44 + 16 + readU32 fd (pos + 36) + readU32 fd (pos + 40))
      rw [ih h _ (by omega) (by omega)]
    · have ha := align4_ge (pos + 44 + 16 + readU32 fd (pos + 36) + readU32 fd (pos + 40))
      rw [ih h _ (by omega) (by omega)]
    · rfl

theorem byteAt_replicate (m a i : Nat) :
    byteAt (List.replicate m a) i = if i < m then a else 0 := by
  unfold byteAt
  induction m generalizing i with
  | zero => simp
  | succ k ih =>
    cases i with
    | zero => simp [List.replicate]
    | succ j => simpa [List.replicate] using ih j

theorem getVarLoop_replicate_ff (m e : Nat) :
    ∀ f p, getVarLoop (List.replicate m 0xff) e f p = [] := by
  intro f
  induction f with
  | zero => intro p; rfl
  | succ g ih =>
    intro p
    simp only [getVarLoop]
    split_ifs with hp hb hm hs hd
    · rfl
    · rfl
    · rfl
    · exfalso
      rw [List.length_replicate] at hb
      have h1 : readU16 (List.replicate m 0xff) p = 0xffff := by
        rw [readU16, byteAt_replicate, byteAt_replicate, if_pos (by omega), if_pos (by omega)]
      rw [h1] at hm
      exact hm (by decide)
    · exfalso
      rw [List.length_replicate] at hb
      have h1 : readU16 (List.replicate m 0xff) p = 0xffff := by
        rw [readU16, byteAt_replicate, byteAt_replicate, if_pos (by omega), if_pos (by omega)]
      rw [h1] at hm
      exact hm (by decide)
    · rfl

theorem strLeB_total : ∀ a b : List Char, strLeB a b = true ∨ strLeB b a = true := by
  intro a
  induction a with
  | nil => intro b; left; rfl
  | cons x xs ih =>
    intro b
    cases b with
    | nil => right; rfl
    | cons y ys =>
      by_cases h1 : x.toNat < y.toNat
      · left; simp [strLeB, h1]
      · by_cases h2 : y.toNat < x.toNat
        · right; simp [strLeB, h2]
        · rcases ih ys with h | h
          · left; simp [strLeB, h1, h2, h]
          · right; simp [strLeB, h1, h2, h]

theorem strLeB_trans : ∀ a b c : List Char,
    strLeB a b = true → strLeB b c = true → strLeB a c = true := by
  intro a
  induction a with
  | nil => intro b c _ _; rfl
  | cons x xs ih =>
    intro b c hab hbc
    cases b with
    | nil => exact absurd hab (by simp [strLeB])
    | cons y ys =>
      cases c with
      | nil => exact absurd hbc (by simp [strLeB])
      | cons z zs =>
        simp only [strLeB] at hab hbc ⊢
        by_cases h1 : x.toNat < y.toNat
        · by_cases h2 : y.toNat < z.toNat
          · rw [if_pos (by omega)]
          · simp only [h2, if_false] at hbc
            by_cases h3 : z.toNat < y.toNat
            · simp only [h3, if_true] at hbc; exact absurd hbc (by simp)
            · rw [if_pos (by omega)]
        · simp only [h1, if_false] at hab
          by_cases h1x : y.toNat < x.toNat
          · simp only [h1x, if_true] at hab; exact absurd hab (by simp)
          · simp only [h1x, if_false] at hab
            by_cases h2 : y.toNat < z.toNat
            · rw [if_pos (by omega)]
            · simp only [h2, if_false] at hbc
              by_cases h3 : z.toNat < y.toNat
              · simp only [h3, if_true] at hbc; exact absurd hbc (by simp)
              · simp only [h3, if_false] at hbc
                rw [if_neg (by omega), if_neg (by omega)]
                exact ih ys zs hab hbc

theorem elemSize_ge (data : List Nat) : 4 ≤ (NewDevicePathElem data).size := by
  unfold NewDevicePathElem DevicePathElem.size
  split_ifs <;> simp

theorem dpLoop_fuel_irrel (data : List Nat) :
    ∀ f1 f2 pos, data.length - pos < f1 → data.length - pos < f2 →
      dpLoop data f1 pos = dpLoop data f2 pos := by
  intro f1
  induction f1 with
  | zero => intro f2 pos h1 h2; omega
  | succ g ih =>
    intro f2 pos h1 h2
    obtain ⟨h, rfl⟩ : ∃ h, f2 = h + 1 := ⟨f2 - 1, by omega⟩
    simp only [dpLoop]
    split_ifs with hp he
    · rfl
    · have hs := elemSize_ge (data.drop pos)
      rw [ih h _ (by omega) (by omega)]
    · rfl

theorem elem_bytes_length (e : DevicePathElem) :
    (DevicePathElem.bytes e).length = e.size := by
  simp [DevicePathElem.bytes, DevicePathElem.size, le16]

theorem decode_encode_elem (e : DevicePathElem) (rest : List Nat)
    (hlen : e.data.length + 4 < 65536) :
    NewDevicePathElem (DevicePathElem.bytes e ++ rest) = e := by
  have hsz : readU16 (DevicePathElem.bytes e ++ rest) 2 = e.data.length + 4 := by
    simp [readU16, byteAt, DevicePathElem.bytes, le16, List.getD]
    omega
  have hl : (DevicePathElem.bytes e ++ rest).length = e.data.length + 4 + rest.length := by
    simp [elem_bytes_length, DevicePathElem.size]
  unfold NewDevicePathElem
  rw [if_pos (by omega), hsz, if_pos (by constructor <;> omega)]
  have htake : (DevicePathElem.bytes e ++ rest).take (e.data.length + 4) =
      DevicePathElem.bytes e := by
    apply List.take_left'
    rw [elem_bytes_length]; rfl
  rw [htake]
  have hdrop : (DevicePathElem.bytes e).drop 4 = e.data := by
    simp [DevicePathElem.bytes, le16]
  rw [hdrop]
  cases e
  simp [byteAt, DevicePathElem.bytes, le16, List.getD]

theorem dpLoop_decodes_encoded :
    ∀ (p : List DevicePathElem), (∀ e ∈ p, e.devType ≠ 0x7f ∧ e.data.length + 4 < 65536) →
      ∀ (data : List Nat) (pos f : Nat),
        data.drop pos = p.flatMap DevicePathElem.bytes ++ DevicePathElem.bytes ⟨0x7f, 0xff, []⟩ →
        data.length - pos < f →
        dpLoop data f pos = p := by
  intro p
  induction p with
  | nil =>
    intro _ data pos f hdrop hf
    have hpos : pos < data.length := by
      by_contra hc
      rw [List.drop_eq_nil_of_le (by omega)] at hdrop
      simp [DevicePathElem.bytes, le16] at hdrop
    obtain ⟨g, rfl⟩ : ∃ g, f = g + 1 := ⟨f - 1, by omega⟩
    simp only [dpLoop]
    rw [if_pos hpos]
    simp only [List.flatMap_nil, List.nil_append] at hdrop
    rw [hdrop]
    have hdec : NewDevicePathElem (DevicePathElem.bytes ⟨0x7f, 0xff, []⟩) =
        ⟨0x7f, 0xff, []⟩ := by
      have h := decode_encode_elem ⟨0x7f, 0xff, []⟩ [] (by simp)
      simpa using h
    rw [hdec]
    simp
  | cons e es ih =>
    intro hwf data pos f hdrop hf
    have hwfe := hwf e (by simp)
    have hwfes : ∀ x ∈ es, x.devType ≠ 0x7f ∧ x.data.length + 4 < 65536 := by
      intro x hx; exact hwf x (by simp [hx])
    simp only [List.flatMap_cons, List.append_assoc] at hdrop
    have hes : e.size = e.data.length + 4 := rfl
    have hlend : data.length - pos =
        (e.data.length + 4) + ((es.flatMap DevicePathElem.bytes).length + 4) := by
      have h := congrArg List.length hdrop
      simp only [List.length_drop, List.length_append, elem_bytes_length,
        DevicePathElem.size, List.length_nil] at h
      omega
    have hpos : pos < data.length := by omega
    obtain ⟨g, rfl⟩ : ∃ g, f = g + 1 := ⟨f - 1, by omega⟩
    simp only [dpLoop]
    rw [if_pos hpos, hdrop, decode_encode_elem _ _ hwfe.2, if_neg hwfe.1]
    congr 1
    apply ih hwfes
    · rw [← List.drop_drop e.size pos data, hdrop, ← elem_bytes_length, List.drop_left]
    · omega

theorem equalsB_refl (e : DevicePathElem) : DevicePathElem.equalsB e e = true := by
  unfold DevicePathElem.equalsB
  split_ifs <;> simp_all

theorem pathEquals_refl : ∀ p : List DevicePathElem, pathEquals p p = true := by
  intro p
  induction p with
  | nil => rfl
  | cons e es ih => simp [pathEquals, equalsB_refl, ih]

theorem hexDigitChar_facts : ∀ d : Nat, d < 16 →
    hexCharVal (hexDigitChar d) = some d ∧ keepGuidChar (hexDigitChar d) = true := by
  decide

theorem fmtHexLE_length (w : Nat) : ∀ n, (fmtHexLE w n).length = w := by
  induction w with
  | zero => intro n; rfl
  | succ v ih => intro n; simp [fmtHexLE, ih]

theorem fmtHex_length (w n : Nat) : (fmtHex w n).length = w := by
  simp [fmtHex, fmtHexLE_length]

theorem fmtHex_mem (w : Nat) : ∀ n c, c ∈ fmtHex w n → ∃ d, d < 16 ∧ c = hexDigitChar d := by
  induction w with
  | zero => intro n c hc; simp [fmtHex, fmtHexLE] at hc
  | succ v ih =>
    intro n c hc
    simp only [fmtHex, fmtHexLE, List.reverse_cons, List.mem_append, List.mem_singleton,
      List.mem_reverse] at hc
    rcases hc with hc | hc
    · exact ih (n / 16) c (by simpa [fmtHex, List.mem_reverse] using hc)
    · exact ⟨n % 16, by omega, hc⟩

theorem strip_fmtHex (w n : Nat) (rest : List Char) :
    stripGuidChars (fmtHex w n ++ rest) = fmtHex w n ++ stripGuidChars rest := by
  unfold stripGuidChars
  rw [List.filter_append]
  congr 1
  apply List.filter_eq_self.mpr
  intro c hc
  obtain ⟨d, hd, rfl⟩ := fmtHex_mem w n c hc
  exact (hexDigitChar_facts d hd).2

theorem strip_dash (rest : List Char) :
    stripGuidChars ('-' :: rest) = stripGuidChars rest := by
  unfold stripGuidChars
  rw [List.filter_cons_of_neg]
  decide

theorem strip_fmtHex_self (w n : Nat) : stripGuidChars (fmtHex w n) = fmtHex w n := by
  have h := strip_fmtHex w n []
  rw [show stripGuidChars ([] : List Char) = [] from rfl, List.append_nil] at h
  exact h

theorem parseHexAcc_append (xs ys : List Char) (acc : Nat) :
    parseHexAcc (xs ++ ys) acc =
      match parseHexAcc xs acc with
      | none => none
      | some v => parseHexAcc ys v := by
  induction xs generalizing acc with
  | nil => rfl
  | cons c cs ih =>
    simp only [List.cons_append, parseHexAcc]
    cases hexCharVal c with
    | none => rfl
    | some d => exact ih (acc * 16 + d)

theorem parseHexAcc_fmtHex (w : Nat) : ∀ n acc, n < 16 ^ w →
    parseHexAcc (fmtHex w n) acc = some (acc * 16 ^ w + n) := by
  induction w with
  | zero =>
    intro n acc hn
    have hz : n = 0 := by omega
    subst hz
    simp [fmtHex, fmtHexLE, parseHexAcc]
  | succ v ih =>
    intro n acc hn
    have hstep : fmtHex (v + 1) n = fmtHex v (n / 16) ++ [hexDigitChar (n % 16)] := by
      simp [fmtHex, fmtHexLE]
    rw [hstep, parseHexAcc_append, ih (n / 16) acc (by omega)]
    simp only [parseHexAcc, (hexDigitChar_facts (n % 16) (by omega)).1]
    have hx : (acc * 16 ^ v + n / 16) * 16 + n % 16 = acc * 16 ^ (v + 1) + n := by
      rw [Nat.add_mul, Nat.pow_succ, ← Nat.mul_assoc]
      omega
    rw [hx]

theorem parseUintHex_fmtHex (w n bits : Nat) (hw : w ≠ 0) (hn : n < 16 ^ w)
    (hb : n < 2 ^ bits) : parseUintHex (fmtHex w n) bits = some n := by
  unfold parseUintHex
  rw [if_neg (by simp [List.isEmpty_iff, ← List.length_eq_zero, fmtHex_length, hw])]
  rw [parseHexAcc_fmtHex w n 0 hn]
  simp [hb]

theorem parseHexBytes_pair (b : Nat) (bs : List Nat) (rest : List Char)
    (hb : b < 256) (hrest : parseHexBytes rest = some bs) :
    parseHexBytes (fmtHex 2 b ++ rest) = some (b :: bs) := by
  have hform : fmtHex 2 b = [hexDigitChar (b / 16 % 16), hexDigitChar (b % 16)] := by
    simp [fmtHex, fmtHexLE]
  rw [hform]
  show parseHexBytes (hexDigitChar (b / 16 % 16) :: hexDigitChar (b % 16) :: rest) = _
  unfold parseHexBytes
  rw [hrest]
  have hv : parseUintHex [hexDigitChar (b / 16 % 16), hexDigitChar (b % 16)] 8 = some b := by
    unfold parseUintHex
    rw [if_neg (by simp)]
    simp only [parseHexAcc, (hexDigitChar_facts (b / 16 % 16) (by omega)).1,
      (hexDigitChar_facts (b % 16) (by omega)).1]
    have hb2 : (0 * 16 + b / 16 % 16) * 16 + b % 16 = b := by omega
    rw [hb2, if_pos (by omega)]
  rw [hv]

theorem list_len8 (l : List Nat) (h : l.length = 8) :
    ∃ a b c d e f g i, l = [a, b, c, d, e, f, g, i] := by
  rcases l with _ | ⟨a, _ | ⟨b, _ | ⟨c, _ | ⟨d, _ | ⟨e, _ | ⟨f, _ | ⟨g, _ | ⟨i, _ | ⟨j, t⟩⟩⟩⟩⟩⟩⟩⟩⟩ <;>
      simp only [List.length_nil, List.length_cons] at h <;> try omega
  exact ⟨a, b, c, d, e, f, g, i, rfl⟩

theorem take8_of (A R : List Char) (hA : A.length = 8) : (A ++ R).take 8 = A :=
  List.take_left' hA

theorem take4_of (A R : List Char) (hA : A.length = 4) : (A ++ R).take 4 = A :=
  List.take_left' hA

theorem drop8_of (A R : List Char) (hA : A.length = 8) : (A ++ R).drop 8 = R :=
  List.drop_left' hA

theorem drop12_of (A B R : List Char) (hA : A.length = 8) (hB : B.length = 4) :
    (A ++ (B ++ R)).drop 12 = R := by
  rw [show (12 : Nat) = A.length + 4 by omega, List.drop_append, List.drop_left' hB]

theorem drop16_of (A B C R : List Char) (hA : A.length = 8) (hB : B.length = 4)
    (hC : C.length = 4) : (A ++ (B ++ (C ++ R))).drop 16 = R := by
  rw [show (16 : Nat) = A.length + 8 by omega, List.drop_append,
    show (8 : Nat) = B.length + 4 by omega, List.drop_append, List.drop_left' hC]

/-- C1: the claim states that decoding the record produced by the
variable-record encoder yields the variable back and the record length
is a multiple of 4.  The length part holds, but the round trip fails:
`BytesVar` writes only the 8 simplified time bytes and so emits a
36-byte header, while `GetVarList` reads the EDK2 44-byte header (16
time bytes), so every field after the time is read 8 bytes off.  At the
concrete variable `exampleVar` the decoder returns one variable whose
name is empty instead of the encoded name. -/
theorem c1_bytesVar_getVarList_no_roundtrip :
    (BytesVar exampleVar).length % 4 = 0 ∧
    getVarList (BytesVar exampleVar) 0 (BytesVar exampleVar).length ≠ [exampleVar] ∧
    (getVarList (BytesVar exampleVar) 0 (BytesVar exampleVar).length).map EfiVar.name =
      [""] := by
  refine ⟨by decide, by decide, by decide⟩

/-- C2: for a store satisfying the data-model invariant
`start ≤ end ≤ len(fileData)` whose variable serialization succeeds,
the image serializer returns exactly head, encoded variables, `0xFF`
padding to `end`, tail; the length is unchanged and every byte outside
`[start, end)` is the byte of the original image. -/
theorem c2_bytesVarStore_frame (fd : List Nat) (startPos endPos : Nat)
    (varlist : List (String × EfiVar)) (out : List Nat)
    (hse : startPos ≤ endPos) (hel : endPos ≤ fd.length)
    (hok : BytesVarStore fd startPos endPos varlist = some out) :
    ∃ varBytes, BytesVarList startPos endPos varlist = some varBytes ∧
      varBytes.length ≤ endPos - startPos ∧
      out = fd.take startPos ++ varBytes ++
        List.replicate (endPos - startPos - varBytes.length) 0xff ++ fd.drop endPos ∧
      out.length = fd.length ∧
      (∀ i, i < startPos → out[i]? = fd[i]?) ∧
      (∀ i, endPos ≤ i → out[i]? = fd[i]?) := by
  unfold BytesVarStore at hok
  cases hvl : BytesVarList startPos endPos varlist with
  | none => rw [hvl] at hok; exact absurd hok (by simp)
  | some varBytes =>
    rw [hvl] at hok
    have hout : out = fd.take startPos ++ varBytes ++
        List.replicate (endPos - startPos - varBytes.length) 0xff ++ fd.drop endPos := by
      cases hok; rfl
    have hlen : varBytes.length ≤ endPos - startPos := by
      unfold BytesVarList at hvl
      dsimp only at hvl
      split_ifs at hvl with hc
      cases hvl
      omega
    have hA : (fd.take startPos).length = startPos := by
      rw [List.length_take]; omega
    refine ⟨varBytes, rfl, hlen, hout, ?_, ?_, ?_⟩
    · rw [hout]
      simp [List.length_append, List.length_take, List.length_replicate, List.length_drop]
      omega
    · intro i hi
      rw [hout, List.append_assoc, List.append_assoc,
        List.getElem?_append_left (by rw [hA]; exact hi), List.getElem?_take, if_pos hi]
    · intro i hi
      rw [hout, List.append_assoc, List.append_assoc,
        List.getElem?_append_right (by rw [hA]; omega),
        List.getElem?_append_right (by omega),
        List.getElem?_append_right (by rw [List.length_replicate]; omega),
        List.getElem?_drop]
      have hidx : endPos + (i - (fd.take startPos).length - varBytes.length -
          (List.replicate (endPos - startPos - varBytes.length) 0xff).length) = i := by
        rw [hA, List.length_replicate]; omega
      rw [hidx]

/-- Witness for C2 at a concrete store: image `[1,2,3,4,5,6]`, region
`[2,4)`, empty variable list. -/
theorem c2_bytesVarStore_frame_witness :
    ∃ varBytes, BytesVarList 2 4 ([] : List (String × EfiVar)) = some varBytes ∧
      varBytes.length ≤ 4 - 2 ∧
      ([1, 2, 0xff, 0xff, 5, 6] : List Nat) = List.take 2 [1, 2, 3, 4, 5, 6] ++ varBytes ++
        List.replicate (4 - 2 - varBytes.length) 0xff ++ List.drop 4 [1, 2, 3, 4, 5, 6] ∧
      ([1, 2, 0xff, 0xff, 5, 6] : List Nat).length = ([1, 2, 3, 4, 5, 6] : List Nat).length ∧
      (∀ i, i < 2 → ([1, 2, 0xff, 0xff, 5, 6] : List Nat)[i]? =
        ([1, 2, 3, 4, 5, 6] : List Nat)[i]?) ∧
      (∀ i, 4 ≤ i → ([1, 2, 0xff, 0xff, 5, 6] : List Nat)[i]? =
        ([1, 2, 3, 4, 5, 6] : List Nat)[i]?) :=
  c2_bytesVarStore_frame [1, 2, 3, 4, 5, 6] 2 4 [] [1, 2, 0xff, 0xff, 5, 6]
    (by decide) (by decide) (by decide)

/-- C3: the claim states the locator stops and returns the first offset
whose GUID at `offset+16` is the NVRAM-data volume GUID.  The code never
does: the NVRAM-data comparison is commented out in `FindNvData`, so the
scan only ever skips file-system sections or strides by 1024 and returns
`-1`.  At the concrete image `c3Image` the candidate at offset 0 carries
the NVRAM-data GUID, yet the function returns `-1` instead of 0. -/
theorem c3_findNvData_misses_nvdata :
    parseBinGUID c3Image 16 = NvDataGUID ∧ 64 < c3Image.length ∧
    findNvData c3Image = -1 := by
  refine ⟨by decide, by decide, by decide⟩

/-- C4 counterexample: the claim quantifies over every `DevicePath`; a
path holding one terminal-typed element (`devType = 0x7F`) encodes to a
buffer whose decode stops immediately, so the decoded path is empty and
not equal to the original (neither exactly nor under the element-wise
`Equals`). -/
theorem c4_roundtrip_counterexample :
    pathEquals (NewDevicePath (pathBytes [⟨0x7f, 0x00, []⟩])) [⟨0x7f, 0x00, []⟩] = false ∧
    NewDevicePath (pathBytes [⟨0x7f, 0x00, []⟩]) ≠ [⟨0x7f, 0x00, []⟩] := by
  refine ⟨by decide, by decide⟩

/-- C4 amended: for every device path whose elements are non-terminal
(`devType ≠ 0x7F`) and small enough for the 16-bit length field
(`len(data) + 4 < 65536`), decoding the encoding yields exactly the
original path, hence also path equality in the sense of the source
(case-insensitive on media/file-path text, exact bytes elsewhere). -/
theorem c4_roundtrip_amended (p : List DevicePathElem)
    (hwf : ∀ e ∈ p, e.devType ≠ 0x7f ∧ e.data.length + 4 < 65536) :
    NewDevicePath (pathBytes p) = p ∧
    pathEquals (NewDevicePath (pathBytes p)) p = true := by
  have hlen : (pathBytes p).length ≠ 0 := by
    simp [pathBytes, DevicePathElem.bytes]
  have hmain : NewDevicePath (pathBytes p) = p := by
    unfold NewDevicePath
    rw [if_neg hlen]
    exact dpLoop_decodes_encoded p hwf (pathBytes p) 0 ((pathBytes p).length + 1)
      (by rw [List.drop_zero]; rfl) (by omega)
  exact ⟨hmain, by rw [hmain]; exact pathEquals_refl p⟩

/-- Witness for the amended C4 at a concrete one-element URI path. -/
theorem c4_roundtrip_amended_witness :
    NewDevicePath (pathBytes [⟨0x03, 0x18, [104, 116, 116, 112]⟩]) =
      [⟨0x03, 0x18, [104, 116, 116, 112]⟩] ∧
    pathEquals (NewDevicePath (pathBytes [⟨0x03, 0x18, [104, 116, 116, 112]⟩]))
      [⟨0x03, 0x18, [104, 116, 116, 112]⟩] = true :=
  c4_roundtrip_amended [⟨0x03, 0x18, [104, 116, 116, 112]⟩] (by decide)

/-- C5: the record decode loop returns no entry and stops cleanly at any
position whose leading 16-bit value is not `0x55AA`; in particular a
variable region of `0xFF` filler decodes to the empty variable list. -/
theorem c5_decode_stop_on_magic :
    (∀ (fd : List Nat) (endPos pos fuel : Nat), readU16 fd pos ≠ 0x55aa →
        getVarLoop fd endPos (fuel + 1) pos = []) ∧
    (∀ m s e : Nat, getVarList (List.replicate m 0xff) s e = []) := by
  constructor
  · intro fd endPos pos fuel h
    simp only [getVarLoop]
    split_ifs with hp hb
    any_goals rfl
  · intro m s e
    exact getVarLoop_replicate_ff m e _ s

/-- Witness for C5 at a concrete region: two zero bytes are not the
record magic, so the loop yields no entry. -/
theorem c5_decode_stop_on_magic_witness :
    getVarLoop [0, 0] 3 4 0 = [] :=
  c5_decode_stop_on_magic.1 [0, 0] 3 0 3 (by decide)

/-- C6: at a record with valid magic, a state byte other than `0x3F` is
skipped without materializing an entry, a `0x3F` record in bounds is
materialized, and in both cases the scan continues at
`align4 (pos + 44 + 16 + nameSize + dataSize)` — the full span rounded
up to the next 4-byte boundary (stated over any sufficient fuels of the
embedded loop). -/
theorem c6_state_filter_advance (fd : List Nat) (endPos pos f1 f2 : Nat)
    (hf1 : endPos - pos < f1)
    (hf2 : endPos - align4 (pos + 44 + 16 + readU32 fd (pos + 36) + readU32 fd (pos + 40)) < f2)
    (hp : pos < endPos) (hb : pos + 44 ≤ fd.length)
    (hm : readU16 fd pos = 0x55aa) :
    (byteAt fd (pos + 2) ≠ 0x3f →
      getVarLoop fd endPos f1 pos =
        getVarLoop fd endPos f2
          (align4 (pos + 44 + 16 + readU32 fd (pos + 36) + readU32 fd (pos + 40)))) ∧
    (byteAt fd (pos + 2) = 0x3f →
      pos + 44 + 16 + readU32 fd (pos + 36) + readU32 fd (pos + 40) ≤ fd.length →
      getVarLoop fd endPos f1 pos =
        decodeVarAt fd pos ::
          getVarLoop fd endPos f2
            (align4 (pos + 44 + 16 + readU32 fd (pos + 36) + readU32 fd (pos + 40)))) := by
  obtain ⟨g, rfl⟩ : ∃ g, f1 = g + 1 := ⟨f1 - 1, by omega⟩
  have ha := align4_ge (pos + 44 + 16 + readU32 fd (pos + 36) + readU32 fd (pos + 40))
  constructor
  · intro hs
    simp only [getVarLoop]
    rw [if_pos hp, if_neg (by omega), if_neg (not_not_intro hm), if_neg hs]
    exact getVarLoop_fuel_irrel fd endPos g f2 _ (by omega) (by omega)
  · intro hs hd
    simp only [getVarLoop]
    rw [if_pos hp, if_neg (by omega), if_neg (not_not_intro hm), if_pos hs, if_neg (by omega)]
    rw [getVarLoop_fuel_irrel fd endPos g f2 _ (by omega) (by omega)]

/-- Witness for C6 at the record encoded by `BytesVar exampleVar`: the
record is materialized and the loop resumes at position 60. -/
theorem c6_state_filter_advance_witness :
    getVarLoop (BytesVar exampleVar) 60 61 0 =
      decodeVarAt (BytesVar exampleVar) 0 :: getVarLoop (BytesVar exampleVar) 60 7 60 :=
  (c6_state_filter_advance (BytesVar exampleVar) 60 0 61 7
    (by decide) (by decide) (by decide) (by decide) (by decide)).2 (by decide) (by decide)

/-- C7: the variable-list serializer concatenates the encoded variables
in sorted-name order and fails with the capacity error exactly when the
encoded size exceeds `end - start` (so an exact fit succeeds and one
byte more fails); the sorted traversal really is a permutation of the
map entries ordered by name. -/
theorem c7_bytesVarList_capacity_sorted :
    ∀ (startPos endPos : Nat) (varlist : List (String × EfiVar)),
      (BytesVarList startPos endPos varlist =
          some ((sortVars varlist).flatMap fun kv => BytesVar kv.2) ↔
        ((((sortVars varlist).flatMap fun kv => BytesVar kv.2).length : Int) ≤
          (endPos : Int) - (startPos : Int))) ∧
      (BytesVarList startPos endPos varlist = none ↔
        ((((sortVars varlist).flatMap fun kv => BytesVar kv.2).length : Int) >
          (endPos : Int) - (startPos : Int))) ∧
      (sortVars varlist).Perm varlist ∧
      (sortVars varlist).Sorted (fun a b => nameLe a.1 b.1 = true) := by
  intro startPos endPos varlist
  haveI hTot : IsTotal (String × EfiVar) (fun a b => nameLe a.1 b.1 = true) :=
    ⟨fun a b => strLeB_total _ _⟩
  haveI hTrans : IsTrans (String × EfiVar) (fun a b => nameLe a.1 b.1 = true) :=
    ⟨fun a b c => strLeB_trans _ _ _⟩
  refine ⟨?_, ?_, List.perm_insertionSort _ _, List.sorted_insertionSort _ _⟩
  · unfold BytesVarList
    dsimp only
    split_ifs with hc
    · simp only [iff_iff_implies_and_implies]
      constructor
      · intro h; exact absurd h (by simp)
      · intro h; omega
    · simp only [true_iff, eq_self_iff_true]
      omega
  · unfold BytesVarList
    dsimp only
    split_ifs with hc
    · simp only [true_iff, eq_self_iff_true]
      omega
    · simp only [iff_iff_implies_and_implies]
      constructor
      · intro h; exact absurd h (by simp)
      · intro h; omega

/-- C8: parsing the canonical string form of a GUID (fields within their
Go types: `Data1` 32-bit, `Data2`/`Data3` 16-bit, `Data4` eight bytes)
returns the GUID unchanged and without error. -/
theorem c8_parse_tostring_guid (g : GUID) (h1 : g.data1 < 2 ^ 32) (h2 : g.data2 < 2 ^ 16)
    (h3 : g.data3 < 2 ^ 16) (h4 : g.data4.length = 8) (h5 : ∀ b ∈ g.data4, b < 256) :
    ParseGUID (GUID.toStr g) = some g := by
  obtain ⟨d1, d2, d3, data4⟩ := g
  simp only at h1 h2 h3 h4 h5
  obtain ⟨b0, b1, b2, b3, b4, b5, b6, b7, rfl⟩ := list_len8 data4 h4
  have hb0 : b0 < 256 := h5 b0 (by simp)
  have hb1 : b1 < 256 := h5 b1 (by simp)
  have hb2 : b2 < 256 := h5 b2 (by simp)
  have hb3 : b3 < 256 := h5 b3 (by simp)
  have hb4 : b4 < 256 := h5 b4 (by simp)
  have hb5 : b5 < 256 := h5 b5 (by simp)
  have hb6 : b6 < 256 := h5 b6 (by simp)
  have hb7 : b7 < 256 := h5 b7 (by simp)
  have h16 : (16 : Nat) ^ 8 = 2 ^ 32 := by norm_num
  have h164 : (16 : Nat) ^ 4 = 2 ^ 16 := by norm_num
  unfold ParseGUID
  rw [show GUID.toStr ⟨d1, d2, d3, [b0, b1, b2, b3, b4, b5, b6, b7]⟩ =
      fmtHex 8 d1 ++ ['-'] ++ fmtHex 4 d2 ++ ['-'] ++ fmtHex 4 d3 ++ ['-'] ++
        fmtHex 2 b0 ++ fmtHex 2 b1 ++ ['-'] ++ fmtHex 2 b2 ++ fmtHex 2 b3 ++
        fmtHex 2 b4 ++ fmtHex 2 b5 ++ fmtHex 2 b6 ++ fmtHex 2 b7 from rfl]
  simp only [List.append_assoc, List.singleton_append, List.cons_append, List.nil_append]
  rw [strip_fmtHex, strip_dash, strip_fmtHex, strip_dash, strip_fmtHex, strip_dash,
    strip_fmtHex, strip_fmtHex, strip_dash, strip_fmtHex, strip_fmtHex, strip_fmtHex,
    strip_fmtHex, strip_fmtHex, strip_fmtHex_self]
  rw [if_pos (by simp [fmtHex_length])]
  rw [take8_of _ _ (fmtHex_length 8 d1), drop8_of _ _ (fmtHex_length 8 d1),
    take4_of _ _ (fmtHex_length 4 d2),
    drop12_of _ _ _ (fmtHex_length 8 d1) (fmtHex_length 4 d2),
    take4_of _ _ (fmtHex_length 4 d3),
    drop16_of _ _ _ _ (fmtHex_length 8 d1) (fmtHex_length 4 d2) (fmtHex_length 4 d3)]
  rw [parseUintHex_fmtHex 8 d1 32 (by omega) (by omega) h1,
    parseUintHex_fmtHex 4 d2 16 (by omega) (by omega) h2,
    parseUintHex_fmtHex 4 d3 16 (by omega) (by omega) h3]
  have htail : parseHexBytes (fmtHex 2 b0 ++ (fmtHex 2 b1 ++ (fmtHex 2 b2 ++ (fmtHex 2 b3 ++
      (fmtHex 2 b4 ++ (fmtHex 2 b5 ++ (fmtHex 2 b6 ++ fmtHex 2 b7))))))) =
      some [b0, b1, b2, b3, b4, b5, b6, b7] := by
    apply parseHexBytes_pair _ _ _ hb0
    apply parseHexBytes_pair _ _ _ hb1
    apply parseHexBytes_pair _ _ _ hb2
    apply parseHexBytes_pair _ _ _ hb3
    apply parseHexBytes_pair _ _ _ hb4
    apply parseHexBytes_pair _ _ _ hb5
    apply parseHexBytes_pair _ _ _ hb6
    rw [← List.append_nil (fmtHex 2 b7)]
    exact parseHexBytes_pair _ _ _ hb7 rfl
  rw [htail]

/-- Witness for C8 at a concrete GUID. -/
theorem c8_parse_tostring_guid_witness :
    ParseGUID (GUID.toStr ⟨0x12345678, 0xabcd, 0x9, [0, 1, 2, 0xff, 16, 32, 64, 128]⟩) =
      some ⟨0x12345678, 0xabcd, 0x9, [0, 1, 2, 0xff, 16, 32, 64, 128]⟩ :=
  c8_parse_tostring_guid ⟨0x12345678, 0xabcd, 0x9, [0, 1, 2, 0xff, 16, 32, 64, 128]⟩
    (by decide) (by decide) (by decide) (by decide) (by decide)

/-- C9: the claim states a boot-marked name with a non-hex suffix is
merely excluded from the listing.  The code instead aborts the whole
listing with an error as soon as such a name is met: with the store
holding `Boot0001` and `BootOrder`, `ListBootEntries` returns the error
(`none`) rather than the one-entry mapping, even though the same store
without `BootOrder` yields that mapping. -/
theorem c9_listBootEntries_fatal_on_bad_suffix :
    ListBootEntries [("Boot0001", bootVar), ("BootOrder", orderVar)] = none ∧
    ListBootEntries [("Boot0001", bootVar)] = some [(1, ⟨7⟩)] := by
  refine ⟨by decide, by decide⟩

/-- C10: every decoded element consumes at least 4 bytes (its size is
`len(data) + 4` and a malformed declared size leaves empty data, size 4),
so the device-path decode loop is insensitive to any fuel beyond the
remaining buffer length: it terminates within `len(data) - pos` steps. -/
theorem c10_devicepath_decode_terminates :
    (∀ data : List Nat, 4 ≤ (NewDevicePathElem data).size) ∧
    (∀ (data : List Nat) (f1 f2 pos : Nat), data.length - pos < f1 →
      data.length - pos < f2 → dpLoop data f1 pos = dpLoop data f2 pos) :=
  ⟨elemSize_ge, fun data => dpLoop_fuel_irrel data⟩

/-- Witness for C10 on concrete buffers. -/
theorem c10_devicepath_decode_terminates_witness :
    4 ≤ (NewDevicePathElem []).size ∧ dpLoop [1, 2] 3 0 = dpLoop [1, 2] 9 0 :=
  ⟨c10_devicepath_decode_terminates.1 [],
    c10_devicepath_decode_terminates.2 [1, 2] 3 9 0 (by decide) (by decide)⟩
